import Mathlib

/-!
Verification of the retrieval-evaluation procedure described by this
repository's notebooks (PyTerrier `pt.Experiment`: ranking metrics from a
run and a relevance-judgment set, statistical comparison across systems,
run persistence).  The notebooks delegate every computation to the external
PyTerrier / ir-measures library, so the evaluation component is modelled
from the specification: query and document identifiers are modelled as
naturals, scores and metric values as rationals, and the logarithmic rank
discount of nDCG is kept abstract as a nonnegative antitone weight
sequence (which the discount 1 / log2(rank + 1) satisfies).
-/

namespace IR

/-- Modelled from the spec: a RunEntry (query id, document id, score)
produced by a system under test; the rank is derived by sorting. -/
structure RunEntry where
  qid : ℕ
  docid : ℕ
  score : ℚ
deriving DecidableEq

/-- Modelled from the spec: a RelevanceJudgment (query id, document id,
grade) with a non-negative integer grade. -/
structure Qrel where
  qid : ℕ
  docid : ℕ
  grade : ℕ
deriving DecidableEq

/-- Ranking order on (document id, score) pairs: score descending, ties
broken by document id ascending (the deterministic tie-break rule). -/
def pairLE (a b : ℕ × ℚ) : Prop :=
  b.2 < a.2 ∨ (a.2 = b.2 ∧ a.1 ≤ b.1)

instance : DecidableRel pairLE := fun a b => by
  unfold pairLE; exact inferInstance

instance : IsTotal (ℕ × ℚ) pairLE := by
  constructor
  intro a b
  rcases lt_trichotomy a.2 b.2 with h | h | h
  · exact Or.inr (Or.inl h)
  · rcases le_total a.1 b.1 with h1 | h1
    · exact Or.inl (Or.inr ⟨h, h1⟩)
    · exact Or.inr (Or.inr ⟨h.symm, h1⟩)
  · exact Or.inl (Or.inl h)

instance : IsTrans (ℕ × ℚ) pairLE := by
  constructor
  intro a b c hab hbc
  rcases hab with h1 | ⟨h1, h1'⟩ <;> rcases hbc with h2 | ⟨h2, h2'⟩
  · exact Or.inl (h2.trans h1)
  · exact Or.inl (h2 ▸ h1)
  · exact Or.inl (h1 ▸ h2)
  · exact Or.inr ⟨h1.trans h2, h1'.trans h2'⟩

instance : IsAntisymm (ℕ × ℚ) pairLE := by
  constructor
  intro a b hab hba
  rcases hab with h1 | ⟨h1, h1'⟩ <;> rcases hba with h2 | ⟨h2, h2'⟩
  · exact absurd h1 (lt_asymm h2)
  · exact absurd h1 (h2 ▸ lt_irrefl _)
  · exact absurd h2 (h1 ▸ lt_irrefl _)
  · exact Prod.ext (le_antisymm h1' h2') h1

/-- Descending order on rationals, used for the ideal ordering of nDCG. -/
def qGE (a b : ℚ) : Prop := b ≤ a

instance : DecidableRel qGE := fun a b => by
  unfold qGE; exact inferInstance

instance : IsTotal ℚ qGE := ⟨fun a b => (le_total b a).imp id id⟩

instance : IsTrans ℚ qGE := ⟨fun _ _ _ h1 h2 => le_trans h2 h1⟩

instance : IsAntisymm ℚ qGE := ⟨fun _ _ h1 h2 => le_antisymm h2 h1⟩

/-- Sort (document id, score) pairs by score descending, document id
ascending. -/
def sortQ (l : List (ℕ × ℚ)) : List (ℕ × ℚ) := l.insertionSort pairLE

/-- Sort rationals in descending order. -/
def sortDescQ (l : List ℚ) : List ℚ := l.insertionSort qGE

/-- Modelled from the spec: the (document id, score) pairs a run holds for
one query, in the order the system produced them. -/
def queryRun (run : List RunEntry) (q : ℕ) : List (ℕ × ℚ) :=
  (run.filter (fun e => decide (e.qid = q))).map (fun e => (e.docid, e.score))

/-- Modelled from the spec: the ranked document list for one query,
derived by sorting by score descending with the deterministic tie-break. -/
def rankedDocs (run : List RunEntry) (q : ℕ) : List ℕ :=
  (sortQ (queryRun run q)).map Prod.fst

/-- Modelled from the spec: grade lookup in the judgment set; a document
absent from the judgments is treated as non-relevant (grade 0). -/
def lookupGrade (qrels : List Qrel) (q d : ℕ) : ℕ :=
  match qrels.find? (fun j => decide (j.qid = q ∧ j.docid = d)) with
  | some j => j.grade
  | none => 0

/-- Relevance at threshold `θ`: a document counts as relevant when its
grade is strictly greater than `θ` (default threshold 0). -/
def isRel (θ : ℕ) (qrels : List Qrel) (q d : ℕ) : Bool :=
  decide (θ < lookupGrade qrels q d)

/-- Reciprocal-rank scan: position `i` is the 0-based rank of the head of
the remaining list; the first relevant document at 0-based rank `i`
contributes `1 / (i + 1)`. -/
def rrAux (rel : ℕ → Bool) : List ℕ → ℕ → ℚ
  | [], _ => 0
  | d :: ds, i => if rel d then 1 / (i + 1 : ℚ) else rrAux rel ds (i + 1)

/-- Modelled from the spec: reciprocal rank at cutoff `k` (reciprocal of
the position of the first relevant document within the cutoff, else 0). -/
def recipRank (θ : ℕ) (qrels : List Qrel) (run : List RunEntry) (k q : ℕ) : ℚ :=
  rrAux (isRel θ qrels q) ((rankedDocs run q).take k) 0

/-- Average-precision scan: `i` is the number of documents already seen,
`r` the number of relevant documents already seen; a relevant document at
0-based rank `i` contributes the precision `(r + 1) / (i + 1)`. -/
def apAux (rel : ℕ → Bool) : List ℕ → ℕ → ℕ → ℚ
  | [], _, _ => 0
  | d :: ds, i, r =>
    if rel d then ((r : ℚ) + 1) / ((i : ℚ) + 1) + apAux rel ds (i + 1) (r + 1)
    else apAux rel ds (i + 1) r

/-- Number of judged-relevant documents for a query at threshold `θ`. -/
def numRel (θ : ℕ) (qrels : List Qrel) (q : ℕ) : ℕ :=
  (qrels.filter (fun j => decide (j.qid = q ∧ θ < j.grade))).length

/-- Modelled from the spec: average precision (precision averaged at each
relevant-document rank, unbounded); division by zero when a query has no
relevant documents yields the defined value 0. -/
def avgPrec (θ : ℕ) (qrels : List Qrel) (run : List RunEntry) (q : ℕ) : ℚ :=
  apAux (isRel θ qrels q) (rankedDocs run q) 0 0 / (numRel θ qrels q : ℚ)

/-- Discounted sum of a gain list: position `i` is weighted by `w i`. -/
def discountedSum (w : ℕ → ℚ) : List ℚ → ℚ
  | [] => 0
  | g :: gs => g * w 0 + discountedSum (fun i => w (i + 1)) gs

/-- Graded gains of a document list (the looked-up grades, as rationals). -/
def gainsOf (qrels : List Qrel) (q : ℕ) (ds : List ℕ) : List ℚ :=
  ds.map (fun d => (lookupGrade qrels q d : ℚ))

/-- Modelled from the spec: discounted cumulative gain over the top-`c`
entries of the ranked list, with abstract discount weights `w`. -/
def dcg (w : ℕ → ℚ) (qrels : List Qrel) (run : List RunEntry) (c q : ℕ) : ℚ :=
  discountedSum w (gainsOf qrels q ((rankedDocs run q).take c))

/-- The grades judged for a query, in judgment order. -/
def gradesOf (qrels : List Qrel) (q : ℕ) : List ℚ :=
  (qrels.filter (fun j => decide (j.qid = q))).map (fun j => (j.grade : ℚ))

/-- Modelled from the spec: ideal discounted cumulative gain, the
discounted sum of the judged grades in the ideal (descending) ordering,
truncated at the cutoff. -/
def idcg (w : ℕ → ℚ) (qrels : List Qrel) (c q : ℕ) : ℚ :=
  discountedSum w ((sortDescQ (gradesOf qrels q)).take c)

/-- Modelled from the spec: normalized discounted cumulative gain (graded
relevance, discount weights `w`, normalized by the ideal ordering within
the cutoff); division by zero yields the defined value 0. -/
def nDCG (w : ℕ → ℚ) (qrels : List Qrel) (run : List RunEntry) (c q : ℕ) : ℚ :=
  dcg w qrels run c q / idcg w qrels c q

/-- Modelled from the spec: the metric specifications used by the
notebooks: reciprocal rank at a cutoff, nDCG at a cutoff and (mean)
average precision. -/
inductive Metric where
  | rr (k : ℕ)
  | ndcg (c : ℕ)
  | map
deriving DecidableEq

/-- Per-query value of one metric. -/
def metricAt (w : ℕ → ℚ) (θ : ℕ) (m : Metric) (qrels : List Qrel)
    (run : List RunEntry) (q : ℕ) : ℚ :=
  match m with
  | .rr k => recipRank θ qrels run k q
  | .ndcg c => nDCG w qrels run c q
  | .map => avgPrec θ qrels run q

/-- Mean of a list of rationals (0 for the empty list). -/
def mean (l : List ℚ) : ℚ := l.sum / (l.length : ℚ)

/-- Modelled from the spec: the aggregated (mean over queries) value of a
metric for one system. -/
def evalMetric (w : ℕ → ℚ) (θ : ℕ) (m : Metric) (qrels : List Qrel)
    (run : List RunEntry) (topics : List ℕ) : ℚ :=
  mean (topics.map (metricAt w θ m qrels run))

/-- Modelled from the spec: Bonferroni correction (multiply the raw
p-value by the number of comparisons, capped at 1.0). -/
def bonferroniCorrect (p : ℚ) (n : ℕ) : ℚ := min (p * (n : ℚ)) 1

/-- Modelled from the spec: the supported correction methods, a
Bonferroni-style correction and a "none" passthrough. -/
inductive Correction where
  | none
  | bonferroni
deriving DecidableEq

/-- Apply a correction method to a raw p-value given the number of
comparisons. -/
def applyCorrection : Correction → ℚ → ℕ → ℚ
  | .none, p, _ => p
  | .bonferroni, p, n => bonferroniCorrect p n

/-- The per-query score vector of one metric for one system, in topic
order (the matched, same-order query sequence the paired test uses). -/
def perQueryScores (w : ℕ → ℚ) (θ : ℕ) (m : Metric) (qrels : List Qrel)
    (run : List RunEntry) (topics : List ℕ) : List ℚ :=
  topics.map (metricAt w θ m qrels run)

/-- Paired differences of two matched score vectors. -/
def diffs (a b : List ℚ) : List ℚ := List.zipWith (fun x y => x - y) a b

/-- Sample variance of a list (denominator `length - 1`; division by zero
yields 0). -/
def sampleVar (l : List ℚ) : ℚ :=
  ((l.map (fun x => (x - mean l) ^ 2)).sum) / ((l.length : ℚ) - 1)

/-- Squared t statistic of the paired t-test on two matched score
vectors: `t² = n · mean(d)² / var(d)` over the differences `d`; the
degenerate variance-zero, mean-zero case evaluates to 0. -/
def tSq (a b : List ℚ) : ℚ :=
  (mean (diffs a b)) ^ 2 * ((diffs a b).length : ℚ) / sampleVar (diffs a b)

/-- Modelled from the spec: the paired two-sided significance test of the
Comparator.  The tail function `F` abstracts the two-sided tail
probability `t² ↦ P(T² ≥ t²)` of the reference distribution, a quantity
that is not rational-valued; a genuine two-sided tail satisfies
`F 0 = 1`. -/
def pairedTTestP (F : ℚ → ℚ) (a b : List ℚ) : ℚ := F (tSq a b)

/-- Modelled from the spec: one line of the line-oriented on-disk run
format with fields (query id, a constant placeholder, document id, rank,
score, run tag). -/
structure TrecLine where
  qid : ℕ
  placeholder : String
  docid : ℕ
  rank : ℕ
  score : ℚ
  tag : String
deriving DecidableEq

/-- Modelled from the spec: persist a run in the line-oriented format,
sorted by query then rank; the rank field is the 0-based position in the
ranked list. -/
def saveRun (tag : String) (run : List RunEntry) (topics : List ℕ) : List TrecLine :=
  topics.flatMap (fun q =>
    ((sortQ (queryRun run q)).enum).map
      (fun ia => ⟨q, "Q0", ia.2.1, ia.1, ia.2.2, tag⟩))

/-- Modelled from the spec: load a persisted run back into memory. -/
def loadRun (lines : List TrecLine) : List RunEntry :=
  lines.map (fun L => ⟨L.qid, L.docid, L.score⟩)

/-- Modelled from the spec: the save modes of the Result Sink; `reuse`
(the default) loads a previously persisted run instead of recomputing,
`overwrite` forces recomputation and replaces the stored file. -/
inductive SaveMode where
  | reuse
  | overwrite
deriving DecidableEq

/-- Modelled from the spec: the caching policy of the Result Sink.  Given
the run the system would compute, the save mode, and the currently stored
file (if any), return the run used for evaluation together with the file
stored afterwards. -/
def runAndPersist (computed : List RunEntry) (mode : SaveMode)
    (saved : Option (List TrecLine)) (tag : String) (topics : List ℕ) :
    List RunEntry × List TrecLine :=
  match mode, saved with
  | .reuse, some lines => (loadRun lines, lines)
  | .reuse, none => (computed, saveRun tag computed topics)
  | .overwrite, _ => (computed, saveRun tag computed topics)

/-- Modelled from the spec: the significance-testing configuration of an
experiment (designated baseline index and correction method). -/
structure SigConfig where
  baseline : ℕ
  correction : Correction
deriving DecidableEq

/-- One row of the experiment report: system name, aggregated metric
values, and (when significance testing is requested) the corrected
p-values against the baseline. -/
structure ExpRow where
  name : String
  scores : List ℚ
  pvalues : Option (List ℚ)
deriving DecidableEq

/-- Modelled from the spec: the evaluation-and-comparison procedure of
`pt.Experiment`: per system, the aggregated value of every metric, plus,
when a baseline and correction are designated, the corrected p-values of
the paired test of each system against the baseline (the number of
comparisons is the number of non-baseline systems). -/
def experiment (F : ℚ → ℚ) (w : ℕ → ℚ) (θ : ℕ)
    (systems : List (String × List RunEntry)) (topics : List ℕ)
    (qrels : List Qrel) (metrics : List Metric) (sig : Option SigConfig) :
    List ExpRow :=
  systems.map (fun s =>
    { name := s.1
      scores := metrics.map (fun m => evalMetric w θ m qrels s.2 topics)
      pvalues := sig.map (fun cfg =>
        metrics.map (fun m =>
          applyCorrection cfg.correction
            (pairedTTestP F
              (perQueryScores w θ m qrels ((systems.getD cfg.baseline s).2) topics)
              (perQueryScores w θ m qrels s.2 topics))
            (systems.length - 1))) })

/-- Drop every judgment whose relevance grade is 0 from the QRels. -/
def dropZeroGrades (qrels : List Qrel) : List Qrel :=
  qrels.filter (fun j => decide (0 < j.grade))

/-- The judgment set of the spec scenario: (q1,d1,1) and (q1,d2,0),
with identifiers modelled as naturals. -/
def qrelsEx : List Qrel := [⟨1, 1, 1⟩, ⟨1, 2, 0⟩]

/-- The first scenario run: (q1,d1,0.9), (q1,d2,0.5). -/
def runA : List RunEntry := [⟨1, 1, 9 / 10⟩, ⟨1, 2, 1 / 2⟩]

/-- The second scenario run: (q1,d2,0.9), (q1,d1,0.5). -/
def runB : List RunEntry := [⟨1, 2, 9 / 10⟩, ⟨1, 1, 1 / 2⟩]

/-- A discount weight sequence is antitone when later ranks never weigh
more than earlier ranks (the logarithmic discount satisfies this). -/
def AntitoneW (w : ℕ → ℚ) : Prop := ∀ i j : ℕ, i ≤ j → w j ≤ w i

/-- A discount weight sequence is nonnegative pointwise. -/
def NonnegW (w : ℕ → ℚ) : Prop := ∀ i : ℕ, 0 ≤ w i

/-- Truncate a weight sequence at the cutoff `c`: zero weight from
position `c` on. -/
def cutW (c : ℕ) (w : ℕ → ℚ) : ℕ → ℚ := fun i => if i < c then w i else 0

theorem rrAux_of_forall_false (rel : ℕ → Bool) :
    ∀ (l : List ℕ) (i : ℕ), (∀ d ∈ l, rel d = false) → rrAux rel l i = 0 := by
  intro l
  induction l with
  | nil => intro i _; rfl
  | cons d ds ih =>
    intro i h
    have hd : rel d = false := h d (List.mem_cons_self d ds)
    simp only [rrAux, hd, if_false, Bool.false_eq_true]
    exact ih (i + 1) (fun x hx => h x (List.mem_cons_of_mem d hx))

theorem rrAux_findIdx (rel : ℕ → Bool) :
    ∀ (l : List ℕ) (i0 : ℕ), l.findIdx rel < l.length →
      rrAux rel l i0 = 1 / ((i0 : ℚ) + (l.findIdx rel : ℚ) + 1) := by
  intro l
  induction l with
  | nil => intro i0 h; simp at h
  | cons d ds ih =>
    intro i0 h
    by_cases hd : rel d
    · simp [rrAux, hd, List.findIdx_cons]
    · have hfalse : rel d = false := by simpa using hd
      have hidx : (d :: ds).findIdx rel = ds.findIdx rel + 1 := by
        simp [List.findIdx_cons, hfalse]
      rw [hidx] at h
      have h' : ds.findIdx rel < ds.length := by
        simpa [List.length_cons] using h
      have := ih (i0 + 1) h'
      simp only [rrAux, hfalse, Bool.false_eq_true, if_false]
      rw [this, hidx]
      push_cast
      ring_nf

theorem apAux_of_forall_false (rel : ℕ → Bool) :
    ∀ (l : List ℕ) (i r : ℕ), (∀ d ∈ l, rel d = false) → apAux rel l i r = 0 := by
  intro l
  induction l with
  | nil => intro i r _; rfl
  | cons d ds ih =>
    intro i r h
    have hd : rel d = false := h d (List.mem_cons_self d ds)
    simp only [apAux, hd, Bool.false_eq_true, if_false]
    exact ih (i + 1) r (fun x hx => h x (List.mem_cons_of_mem d hx))

theorem isRel_eq_false_of_numRel_zero {θ : ℕ} {qrels : List Qrel} {q : ℕ}
    (h : numRel θ qrels q = 0) (d : ℕ) : isRel θ qrels q d = false := by
  simp only [isRel, decide_eq_false_iff_not, not_lt]
  by_contra hlt
  push_neg at hlt
  unfold lookupGrade at hlt
  cases hfind : qrels.find? (fun j => decide (j.qid = q ∧ j.docid = d)) with
  | none => rw [hfind] at hlt; simp at hlt
  | some j =>
    rw [hfind] at hlt
    simp only at hlt
    have hpj : j.qid = q ∧ j.docid = d := by
      have := List.find?_some hfind
      simpa using this
    have hmem : j ∈ qrels := List.mem_of_find?_eq_some hfind
    have hjf : j ∈ qrels.filter (fun j => decide (j.qid = q ∧ θ < j.grade)) :=
      List.mem_filter.mpr ⟨hmem, by simp [hpj.1, hlt]⟩
    have : 0 < numRel θ qrels q := by
      unfold numRel
      exact List.length_pos.mpr (List.ne_nil_of_mem hjf)
    omega

/-- C1: for every query, reciprocal rank at cutoff `k` equals the
reciprocal of the rank of the first relevant document among the top-`k`
entries of the ranked list (0-based index `i` giving `1 / (i + 1)`), and
0 when no relevant document appears within the cutoff; on the spec
scenario judgments, the run (q1,d1,0.9),(q1,d2,0.5) has RR@10 = 1.0 and
the run (q1,d2,0.9),(q1,d1,0.5) has RR@10 = 0.5. -/
theorem C1_reciprocal_rank :
    (∀ (θ : ℕ) (qrels : List Qrel) (run : List RunEntry) (k q i : ℕ),
      ((rankedDocs run q).take k).findIdx (isRel θ qrels q) = i →
      i < ((rankedDocs run q).take k).length →
      recipRank θ qrels run k q = 1 / ((i : ℚ) + 1)) ∧
    (∀ (θ : ℕ) (qrels : List Qrel) (run : List RunEntry) (k q : ℕ),
      (∀ d ∈ (rankedDocs run q).take k, isRel θ qrels q d = false) →
      recipRank θ qrels run k q = 0) ∧
    recipRank 0 qrelsEx runA 10 1 = 1 ∧
    recipRank 0 qrelsEx runB 10 1 = 1 / 2 := by
  refine ⟨?_, ?_, ?_, ?_⟩
  · intro θ qrels run k q i hidx hlen
    have := rrAux_findIdx (isRel θ qrels q) ((rankedDocs run q).take k) 0 (hidx ▸ hlen)
    rw [recipRank, this, hidx]
    norm_num
  · intro θ qrels run k q h
    exact rrAux_of_forall_false _ _ _ h
  · norm_num [recipRank, rrAux, rankedDocs, sortQ, queryRun, List.insertionSort,
      List.orderedInsert, pairLE, isRel, lookupGrade, List.find?, List.filter,
      qrelsEx, runA]
  · norm_num [recipRank, rrAux, rankedDocs, sortQ, queryRun, List.insertionSort,
      List.orderedInsert, pairLE, isRel, lookupGrade, List.find?, List.filter,
      qrelsEx, runB]

theorem C1_reciprocal_rank_witness :
    recipRank 0 qrelsEx runB 10 1 = 1 / ((1 : ℚ) + 1) := by
  refine C1_reciprocal_rank.1 0 qrelsEx runB 10 1 1 ?_ ?_
  · norm_num [rankedDocs, sortQ, queryRun, List.insertionSort, List.orderedInsert,
      pairLE, isRel, lookupGrade, List.find?, List.filter, List.findIdx,
      List.findIdx.go, qrelsEx, runB]
  · norm_num [rankedDocs, sortQ, queryRun, List.insertionSort, List.orderedInsert,
      pairLE, qrelsEx, runB]

/-- C3: the Bonferroni-corrected p-value equals the raw p-value
multiplied by the number of comparisons `n`, capped at 1.0, and for every
raw p-value (a probability in `[0, 1]`) and every `n ≥ 1` it is at least
the raw p-value and at most 1.0. -/
theorem C3_bonferroni_correction (p : ℚ) (n : ℕ)
    (hp0 : 0 ≤ p) (hp1 : p ≤ 1) (hn : 1 ≤ n) :
    bonferroniCorrect p n = min (p * (n : ℚ)) 1 ∧
    p ≤ bonferroniCorrect p n ∧ bonferroniCorrect p n ≤ 1 := by
  refine ⟨rfl, ?_, min_le_right _ _⟩
  refine le_min ?_ hp1
  have hn' : (1 : ℚ) ≤ (n : ℚ) := by exact_mod_cast hn
  exact le_mul_of_one_le_right hp0 hn'

theorem C3_bonferroni_correction_witness :
    bonferroniCorrect (1 / 2) 3 = min ((1 / 2 : ℚ) * (3 : ℚ)) 1 ∧
    (1 / 2 : ℚ) ≤ bonferroniCorrect (1 / 2) 3 ∧ bonferroniCorrect (1 / 2) 3 ≤ 1 :=
  C3_bonferroni_correction (1 / 2) 3 (by norm_num) (by norm_num) (by norm_num)

/-- C5: for every query with zero judged-relevant documents, and for
every query for which the run contains no entries, reciprocal rank and
average precision evaluate to the defined value 0 (the division by zero
arising for such queries yields 0 rather than failing). -/
theorem C5_zero_relevant_or_empty_run (θ : ℕ) (qrels : List Qrel)
    (run : List RunEntry) (k q : ℕ) :
    (numRel θ qrels q = 0 →
      recipRank θ qrels run k q = 0 ∧ avgPrec θ qrels run q = 0) ∧
    (queryRun run q = [] →
      recipRank θ qrels run k q = 0 ∧ avgPrec θ qrels run q = 0) := by
  constructor
  · intro h
    have hrel : ∀ d, isRel θ qrels q d = false := isRel_eq_false_of_numRel_zero h
    constructor
    · exact rrAux_of_forall_false _ _ _ (fun d _ => hrel d)
    · rw [avgPrec, apAux_of_forall_false _ _ _ _ (fun d _ => hrel d)]
      exact zero_div _
  · intro h
    have hdocs : rankedDocs run q = [] := by
      simp [rankedDocs, sortQ, h, List.insertionSort]
    constructor
    · rw [recipRank, hdocs]
      simp [rrAux]
    · rw [avgPrec, hdocs]
      show (0 : ℚ) / _ = 0
      exact zero_div _

theorem C5_zero_relevant_or_empty_run_witness :
    recipRank 0 [] runA 10 1 = 0 ∧ avgPrec 0 [] runA 1 = 0 :=
  (C5_zero_relevant_or_empty_run 0 [] runA 10 1).1 rfl

theorem diffs_self (a : List ℚ) : diffs a a = List.replicate a.length 0 := by
  induction a with
  | nil => rfl
  | cons x xs ih =>
    simp only [diffs, List.zipWith_cons_cons, List.length_cons, List.replicate_succ,
      sub_self] at *
    rw [ih]

theorem tSq_self (a : List ℚ) : tSq a a = 0 := by
  have hm : mean (diffs a a) = 0 := by
    rw [diffs_self]
    simp [mean, List.sum_replicate]
  rw [tSq, hm]
  simp

/-- C6: for every metric and every pair of systems whose per-query metric
scores are identical on the same query sequence, the paired two-sided
significance test returns p-value 1.0 (the two-sided tail function
evaluated at a zero test statistic). -/
theorem C6_paired_test_identical_scores (F : ℚ → ℚ) (hF : F 0 = 1)
    (w : ℕ → ℚ) (θ : ℕ) (m : Metric) (qrels : List Qrel)
    (runX runY : List RunEntry) (topics : List ℕ)
    (h : perQueryScores w θ m qrels runX topics =
      perQueryScores w θ m qrels runY topics) :
    pairedTTestP F (perQueryScores w θ m qrels runX topics)
      (perQueryScores w θ m qrels runY topics) = 1 := by
  rw [h, pairedTTestP, tSq_self]
  exact hF

theorem C6_paired_test_identical_scores_witness :
    pairedTTestP (fun x => 1 - x)
      (perQueryScores (fun _ => 0) 0 Metric.map qrelsEx runA [1])
      (perQueryScores (fun _ => 0) 0 Metric.map qrelsEx runA [1]) = 1 :=
  C6_paired_test_identical_scores (fun x => 1 - x) (by norm_num)
    (fun _ => 0) 0 Metric.map qrelsEx runA runA [1] rfl

/-- C7: when a previously persisted run exists at the save location and
caching is enabled (reuse mode, the default), evaluation uses the loaded
stored run and the stored file is kept; in overwrite mode the run is
recomputed and the stored file is replaced by the freshly persisted
run. -/
theorem C7_caching_policy (computed : List RunEntry) (lines : List TrecLine)
    (saved : Option (List TrecLine)) (tag : String) (topics : List ℕ) :
    (saved = some lines →
      runAndPersist computed SaveMode.reuse saved tag topics = (loadRun lines, lines)) ∧
    runAndPersist computed SaveMode.overwrite saved tag topics =
      (computed, saveRun tag computed topics) := by
  constructor
  · intro h; subst h; rfl
  · cases saved <;> rfl

theorem C7_caching_policy_witness :
    runAndPersist runA SaveMode.reuse (some []) "BM25" [1] = (loadRun [], []) :=
  (C7_caching_policy runA [] (some []) "BM25" [1]).1 rfl

/-- C9: designating a baseline and correction method does not change the
aggregated per-metric values of any system; the report rows with
significance testing carry the same names and metric scores as the rows
without it, and without it no p-value column is present. -/
theorem C9_significance_no_frame_effect (F : ℚ → ℚ) (w : ℕ → ℚ) (θ : ℕ)
    (systems : List (String × List RunEntry)) (topics : List ℕ)
    (qrels : List Qrel) (metrics : List Metric) (cfg : SigConfig) :
    (experiment F w θ systems topics qrels metrics (some cfg)).map
        (fun r => (r.name, r.scores)) =
      (experiment F w θ systems topics qrels metrics Option.none).map
        (fun r => (r.name, r.scores)) ∧
    (experiment F w θ systems topics qrels metrics Option.none).map
        (fun r => r.pvalues) =
      List.replicate systems.length Option.none := by
  constructor
  · simp [experiment, List.map_map]
  · simp [experiment, List.map_map]
    rw [← List.map_const']
    rfl

theorem sortQ_sorted (l : List (ℕ × ℚ)) : List.Sorted pairLE (sortQ l) :=
  List.sorted_insertionSort pairLE l

theorem sortQ_perm (l : List (ℕ × ℚ)) : (sortQ l).Perm l :=
  List.perm_insertionSort pairLE l

theorem sortQ_eq_of_perm {a b : List (ℕ × ℚ)} (h : a.Perm b) : sortQ a = sortQ b :=
  List.eq_of_perm_of_sorted ((sortQ_perm a).trans (h.trans (sortQ_perm b).symm))
    (sortQ_sorted a) (sortQ_sorted b)

theorem sortQ_idem (l : List (ℕ × ℚ)) : sortQ (sortQ l) = sortQ l :=
  sortQ_eq_of_perm (sortQ_perm l)

theorem queryRun_perm {run run' : List RunEntry} (h : run.Perm run') (q : ℕ) :
    (queryRun run q).Perm (queryRun run' q) :=
  (h.filter _).map _

theorem metricAt_congr {run run' : List RunEntry} {q : ℕ}
    (h : rankedDocs run q = rankedDocs run' q) (w : ℕ → ℚ) (θ : ℕ) (m : Metric)
    (qrels : List Qrel) :
    metricAt w θ m qrels run q = metricAt w θ m qrels run' q := by
  cases m <;> simp [metricAt, recipRank, avgPrec, nDCG, dcg, h]

/-- C8: for every run with no true score ties within a query and every
metric cutoff at least the length of the ranked list, any order-only
re-sort (a permutation of the run entries, which the deterministic
score-descending, document-id-ascending ranking maps back to the same
ranked list) leaves all metric values unchanged. -/
theorem C8_resort_invariance (w : ℕ → ℚ) (θ : ℕ) (qrels : List Qrel)
    (run run' : List RunEntry) (topics : List ℕ) (k c : ℕ)
    (hperm : run.Perm run')
    (hties : ∀ e ∈ run, ∀ e' ∈ run, e.qid = e'.qid → e ≠ e' → e.score ≠ e'.score)
    (hcut : ∀ q ∈ topics, (queryRun run q).length ≤ k ∧ (queryRun run q).length ≤ c) :
    evalMetric w θ (Metric.rr k) qrels run' topics =
      evalMetric w θ (Metric.rr k) qrels run topics ∧
    evalMetric w θ (Metric.ndcg c) qrels run' topics =
      evalMetric w θ (Metric.ndcg c) qrels run topics ∧
    evalMetric w θ Metric.map qrels run' topics =
      evalMetric w θ Metric.map qrels run topics := by
  have hdocs : ∀ q, rankedDocs run' q = rankedDocs run q := by
    intro q
    rw [rankedDocs, rankedDocs, sortQ_eq_of_perm (queryRun_perm hperm.symm q)]
  refine ⟨?_, ?_, ?_⟩ <;>
    exact congrArg mean
      (List.map_congr_left (fun q _ => metricAt_congr (hdocs q) w θ _ qrels))

theorem C8_resort_invariance_witness :
    evalMetric (fun i => 1 / ((i : ℚ) + 1)) 0 (Metric.rr 2) qrelsEx
      [⟨1, 2, 1⟩, ⟨1, 1, 2⟩] [1] =
      evalMetric (fun i => 1 / ((i : ℚ) + 1)) 0 (Metric.rr 2) qrelsEx
      [⟨1, 1, 2⟩, ⟨1, 2, 1⟩] [1] :=
  (C8_resort_invariance (fun i => 1 / ((i : ℚ) + 1)) 0 qrelsEx
    [⟨1, 1, 2⟩, ⟨1, 2, 1⟩] [⟨1, 2, 1⟩, ⟨1, 1, 2⟩] [1] 2 2
    (List.Perm.swap _ _ _)
    (by
      intro e he e' he' hq hne
      simp only [List.mem_cons, List.not_mem_nil, or_false] at he he'
      rcases he with rfl | rfl <;> rcases he' with rfl | rfl <;>
        first
          | exact absurd rfl hne
          | norm_num)
    (by
      intro q hq
      simp only [List.mem_cons, List.not_mem_nil, or_false] at hq
      subst hq
      constructor <;>
        simp [queryRun, List.filter])).1

theorem loadRun_enum_block (q : ℕ) (tag : String) (l : List (ℕ × ℚ)) :
    loadRun (l.enum.map (fun ia => ⟨q, "Q0", ia.2.1, ia.1, ia.2.2, tag⟩)) =
      l.map (fun p => ⟨q, p.1, p.2⟩) := by
  unfold loadRun
  rw [List.map_map]
  have h : ((fun L => (⟨L.qid, L.docid, L.score⟩ : RunEntry)) ∘
      (fun ia : ℕ × (ℕ × ℚ) => (⟨q, "Q0", ia.2.1, ia.1, ia.2.2, tag⟩ : TrecLine))) =
      (fun p : ℕ × ℚ => (⟨q, p.1, p.2⟩ : RunEntry)) ∘ Prod.snd := rfl
  rw [h, ← List.map_map, List.enum_map_snd]

theorem queryRun_map_mk (l : List (ℕ × ℚ)) (q q' : ℕ) :
    queryRun (l.map (fun p => ⟨q, p.1, p.2⟩)) q' = if q = q' then l else [] := by
  unfold queryRun
  rw [List.filter_map, List.map_map]
  by_cases h : q = q'
  · subst h
    have h1 : ((fun e : RunEntry => decide (e.qid = q)) ∘
        fun p : ℕ × ℚ => (⟨q, p.1, p.2⟩ : RunEntry)) = fun _ => true := by
      funext p; simp
    have h2 : ((fun e : RunEntry => (e.docid, e.score)) ∘
        fun p : ℕ × ℚ => (⟨q, p.1, p.2⟩ : RunEntry)) = id := by
      funext p; rfl
    rw [h1, h2, List.filter_true, List.map_id, if_pos rfl]
  · simp [Function.comp, h]

theorem queryRun_append (A B : List RunEntry) (q : ℕ) :
    queryRun (A ++ B) q = queryRun A q ++ queryRun B q := by
  simp [queryRun, List.filter_append]

theorem loadRun_append (A B : List TrecLine) :
    loadRun (A ++ B) = loadRun A ++ loadRun B := by
  simp [loadRun]

theorem saveRun_cons (tag : String) (run : List RunEntry) (t : ℕ) (ts : List ℕ) :
    saveRun tag run (t :: ts) =
      ((sortQ (queryRun run t)).enum).map
          (fun ia => ⟨t, "Q0", ia.2.1, ia.1, ia.2.2, tag⟩) ++
        saveRun tag run ts := by
  simp [saveRun, List.flatMap_cons]

theorem queryRun_roundtrip_notMem (run : List RunEntry) (tag : String) :
    ∀ (topics : List ℕ) (q : ℕ), q ∉ topics →
      queryRun (loadRun (saveRun tag run topics)) q = [] := by
  intro topics
  induction topics with
  | nil => intro q _; rfl
  | cons t ts ih =>
    intro q hq
    rw [saveRun_cons, loadRun_append, queryRun_append, loadRun_enum_block,
      queryRun_map_mk]
    rw [if_neg (fun h : t = q => hq (h ▸ List.mem_cons_self t ts)), List.nil_append]
    exact ih q (fun h => hq (List.mem_cons_of_mem t h))

theorem queryRun_roundtrip (run : List RunEntry) (tag : String) :
    ∀ (topics : List ℕ), topics.Nodup → ∀ q ∈ topics,
      queryRun (loadRun (saveRun tag run topics)) q = sortQ (queryRun run q) := by
  intro topics
  induction topics with
  | nil => intro _ q hq; exact absurd hq (List.not_mem_nil q)
  | cons t ts ih =>
    intro hnd q hq
    have htnot : t ∉ ts := (List.nodup_cons.mp hnd).1
    have hnd' : ts.Nodup := (List.nodup_cons.mp hnd).2
    rw [saveRun_cons, loadRun_append, queryRun_append, loadRun_enum_block,
      queryRun_map_mk]
    rcases List.mem_cons.mp hq with rfl | hmem
    · rw [if_pos rfl, queryRun_roundtrip_notMem run tag ts q htnot, List.append_nil]
    · have hne : t ≠ q := fun h => htnot (h ▸ hmem)
      rw [if_neg hne, List.nil_append]
      exact ih hnd' q hmem

/-- C4: persisting a run to the line-oriented on-disk format and loading
it back yields exactly the same metric values as evaluating the in-memory
run directly (equality in exact rational arithmetic, hence within any
floating-point tolerance). -/
theorem C4_roundtrip_metrics (w : ℕ → ℚ) (θ : ℕ) (tag : String)
    (qrels : List Qrel) (run : List RunEntry) (topics : List ℕ)
    (hnd : topics.Nodup) (m : Metric) :
    evalMetric w θ m qrels (loadRun (saveRun tag run topics)) topics =
      evalMetric w θ m qrels run topics := by
  unfold evalMetric
  refine congrArg mean (List.map_congr_left ?_)
  intro q hq
  refine metricAt_congr ?_ w θ m qrels
  rw [rankedDocs, rankedDocs, queryRun_roundtrip run tag topics hnd q hq, sortQ_idem]

theorem C4_roundtrip_metrics_witness :
    evalMetric (fun i => 1 / ((i : ℚ) + 1)) 0 Metric.map qrelsEx
        (loadRun (saveRun "BM25" runA [1])) [1] =
      evalMetric (fun i => 1 / ((i : ℚ) + 1)) 0 Metric.map qrelsEx runA [1] :=
  C4_roundtrip_metrics (fun i => 1 / ((i : ℚ) + 1)) 0 "BM25" qrelsEx runA [1]
    (by decide) Metric.map

theorem lookupGrade_dropZero :
    ∀ (qrels : List Qrel), (qrels.map (fun j => (j.qid, j.docid))).Nodup →
      ∀ q d, lookupGrade (dropZeroGrades qrels) q d = lookupGrade qrels q d := by
  intro qrels
  induction qrels with
  | nil => intro _ q d; rfl
  | cons j rest ih =>
    intro hnd q d
    have hkey : (j.qid, j.docid) ∉ rest.map (fun x => (x.qid, x.docid)) :=
      (List.nodup_cons.mp hnd).1
    have hrest := (List.nodup_cons.mp hnd).2
    by_cases hpj : j.qid = q ∧ j.docid = d
    · have horig : lookupGrade (j :: rest) q d = j.grade := by
        rw [lookupGrade, List.find?_cons_of_pos _ (by simpa using hpj)]
      by_cases hg : 0 < j.grade
      · have hfilt : dropZeroGrades (j :: rest) = j :: dropZeroGrades rest := by
          simp [dropZeroGrades, List.filter_cons, hg]
        rw [hfilt, horig, lookupGrade, List.find?_cons_of_pos _ (by simpa using hpj)]
      · have hg0 : j.grade = 0 := by omega
        have hfilt : dropZeroGrades (j :: rest) = dropZeroGrades rest := by
          simp [dropZeroGrades, List.filter_cons, hg]
        have hnone : rest.find? (fun x => decide (x.qid = q ∧ x.docid = d)) = none := by
          rw [List.find?_eq_none]
          intro x hx hpx
          have hx' : x.qid = q ∧ x.docid = d := by simpa using hpx
          refine hkey ?_
          have : (x.qid, x.docid) = (j.qid, j.docid) := by
            rw [hx'.1, hx'.2, hpj.1, hpj.2]
          exact this ▸ List.mem_map_of_mem (fun y => (y.qid, y.docid)) hx
        have hrest0 : lookupGrade rest q d = 0 := by
          rw [lookupGrade, hnone]
        rw [hfilt, ih hrest q d, hrest0, horig, hg0]
    · have horig : lookupGrade (j :: rest) q d = lookupGrade rest q d := by
        rw [lookupGrade, List.find?_cons_of_neg _ (by simpa using hpj), lookupGrade]
      by_cases hg : 0 < j.grade
      · have hfilt : dropZeroGrades (j :: rest) = j :: dropZeroGrades rest := by
          simp [dropZeroGrades, List.filter_cons, hg]
        rw [hfilt, horig, lookupGrade,
          List.find?_cons_of_neg _ (by simpa using hpj), ← lookupGrade, ih hrest q d]
      · have hfilt : dropZeroGrades (j :: rest) = dropZeroGrades rest := by
          simp [dropZeroGrades, List.filter_cons, hg]
        rw [hfilt, horig, ih hrest q d]

theorem isRel_dropZero (qrels : List Qrel)
    (hnd : (qrels.map (fun j => (j.qid, j.docid))).Nodup) (θ q : ℕ) :
    isRel θ (dropZeroGrades qrels) q = isRel θ qrels q := by
  funext d
  rw [isRel, isRel, lookupGrade_dropZero qrels hnd q d]

theorem numRel_dropZero (qrels : List Qrel) (θ q : ℕ) :
    numRel θ (dropZeroGrades qrels) q = numRel θ qrels q := by
  unfold numRel dropZeroGrades
  rw [List.filter_filter]
  refine congrArg List.length (List.filter_congr ?_)
  intro j _
  by_cases h1 : j.qid = q <;> by_cases h2 : θ < j.grade <;>
    simp [h1, h2, Nat.lt_of_le_of_lt (Nat.zero_le θ)]

theorem discountedSum_replicate_zero :
    ∀ (n : ℕ) (w : ℕ → ℚ), discountedSum w (List.replicate n 0) = 0 := by
  intro n
  induction n with
  | zero => intro w; rfl
  | succ m ih =>
    intro w
    rw [List.replicate_succ, discountedSum, ih]
    ring

theorem discountedSum_append_replicate_zero :
    ∀ (X : List ℚ) (w : ℕ → ℚ) (n : ℕ),
      discountedSum w (X ++ List.replicate n 0) = discountedSum w X := by
  intro X
  induction X with
  | nil =>
    intro w n
    rw [List.nil_append, discountedSum_replicate_zero]
    rfl
  | cons g gs ih =>
    intro w n
    rw [List.cons_append, discountedSum, discountedSum, ih]

theorem sortDescQ_sorted (l : List ℚ) : List.Sorted qGE (sortDescQ l) :=
  List.sorted_insertionSort qGE l

theorem sortDescQ_perm (l : List ℚ) : (sortDescQ l).Perm l :=
  List.perm_insertionSort qGE l

theorem sortDescQ_eq_of_perm {a b : List ℚ} (h : a.Perm b) : sortDescQ a = sortDescQ b :=
  List.eq_of_perm_of_sorted ((sortDescQ_perm a).trans (h.trans (sortDescQ_perm b).symm))
    (sortDescQ_sorted a) (sortDescQ_sorted b)

theorem sortDescQ_append_replicate_zero (D : List ℚ) (hD : ∀ x ∈ D, 0 ≤ x) (z : ℕ) :
    sortDescQ (D ++ List.replicate z 0) = sortDescQ D ++ List.replicate z 0 := by
  refine List.eq_of_perm_of_sorted ?_ (sortDescQ_sorted _) ?_
  · exact (sortDescQ_perm _).trans ((sortDescQ_perm D).append_right _).symm
  · rw [List.Sorted, List.pairwise_append]
    refine ⟨sortDescQ_sorted D, ?_, ?_⟩
    · rw [List.pairwise_replicate]
      exact Or.inr le_rfl
    · intro a ha b hb
      have ha' : a ∈ D := (sortDescQ_perm D).mem_iff.mp ha
      have hb' : b = 0 := List.eq_of_mem_replicate hb
      rw [qGE, hb']
      exact hD a ha'

theorem gradesOf_dropZero (qrels : List Qrel) (q : ℕ) :
    (gradesOf qrels q).Perm
      (gradesOf (dropZeroGrades qrels) q ++
        List.replicate
          ((qrels.filter
            (fun j => decide (j.qid = q) && !decide (0 < j.grade))).length) 0) := by
  have hsplit := List.filter_append_perm (fun j => decide (0 < j.grade))
    (qrels.filter (fun j => decide (j.qid = q)))
  have hmap := hsplit.map (fun j => (j.grade : ℚ))
  rw [List.map_append] at hmap
  have h1 : (qrels.filter (fun j => decide (j.qid = q))).filter
      (fun j => decide (0 < j.grade)) =
      (dropZeroGrades qrels).filter (fun j => decide (j.qid = q)) := by
    rw [dropZeroGrades, List.filter_filter, List.filter_filter]
    exact List.filter_congr (fun j _ => Bool.and_comm _ _)
  have h2 : ((qrels.filter (fun j => decide (j.qid = q))).filter
      (fun j => !decide (0 < j.grade))).map (fun j => (j.grade : ℚ)) =
      List.replicate
        ((qrels.filter
          (fun j => decide (j.qid = q) && !decide (0 < j.grade))).length) 0 := by
    rw [List.eq_replicate_iff]
    constructor
    · rw [List.length_map, List.filter_filter]
      refine congrArg List.length (List.filter_congr ?_)
      intro j _
      exact Bool.and_comm _ _
    · intro b hb
      rcases List.mem_map.mp hb with ⟨j, hj, rfl⟩
      have := (List.mem_filter.mp hj).2
      have hg : j.grade = 0 := by
        simp only [Bool.not_eq_true', decide_eq_false_iff_not, not_lt] at this
        omega
      rw [hg]
      norm_num
  rw [h1, h2] at hmap
  unfold gradesOf
  exact hmap.symm

theorem idcg_dropZero (w : ℕ → ℚ) (qrels : List Qrel) (c q : ℕ) :
    idcg w (dropZeroGrades qrels) c q = idcg w qrels c q := by
  unfold idcg
  have hperm := gradesOf_dropZero qrels q
  rw [sortDescQ_eq_of_perm hperm]
  have hnn : ∀ x ∈ gradesOf (dropZeroGrades qrels) q, (0 : ℚ) ≤ x := by
    intro x hx
    rcases List.mem_map.mp hx with ⟨j, _, rfl⟩
    positivity
  rw [sortDescQ_append_replicate_zero _ hnn, List.take_append_eq_append_take,
    List.take_replicate, discountedSum_append_replicate_zero]

/-- C10: judgments with relevance grade 0 are equivalent to absent
judgments: for every duplicate-free judgment set (at most one judgment
per (query, document) pair, the data-model invariant), removing every
zero-grade judgment leaves every computed metric value unchanged. -/
theorem C10_zero_grade_judgments (w : ℕ → ℚ) (θ : ℕ) (qrels : List Qrel)
    (run : List RunEntry) (topics : List ℕ)
    (hkeys : (qrels.map (fun j => (j.qid, j.docid))).Nodup) (m : Metric) :
    evalMetric w θ m (dropZeroGrades qrels) run topics =
      evalMetric w θ m qrels run topics := by
  unfold evalMetric
  refine congrArg mean (List.map_congr_left ?_)
  intro q _
  cases m with
  | rr k =>
    simp only [metricAt, recipRank]
    rw [isRel_dropZero qrels hkeys θ q]
  | ndcg c =>
    simp only [metricAt, nDCG, dcg]
    rw [idcg_dropZero]
    have hg : gainsOf (dropZeroGrades qrels) q = gainsOf qrels q := by
      funext ds
      unfold gainsOf
      refine List.map_congr_left ?_
      intro d _
      rw [lookupGrade_dropZero qrels hkeys q d]
    rw [hg]
  | map =>
    simp only [metricAt, avgPrec]
    rw [isRel_dropZero qrels hkeys θ q, numRel_dropZero]

theorem C10_zero_grade_judgments_witness :
    evalMetric (fun i => 1 / ((i : ℚ) + 1)) 0 (Metric.ndcg 10) (dropZeroGrades qrelsEx)
        runA [1] =
      evalMetric (fun i => 1 / ((i : ℚ) + 1)) 0 (Metric.ndcg 10) qrelsEx runA [1] :=
  C10_zero_grade_judgments (fun i => 1 / ((i : ℚ) + 1)) 0 qrelsEx runA [1]
    (by decide) (Metric.ndcg 10)

theorem antitoneW_shift {w : ℕ → ℚ} (h : AntitoneW w) : AntitoneW (fun i => w (i + 1)) :=
  fun i j hij => h (i + 1) (j + 1) (by omega)

theorem nonnegW_shift {w : ℕ → ℚ} (h : NonnegW w) : NonnegW (fun i => w (i + 1)) :=
  fun i => h (i + 1)

theorem antitoneW_cutW {w : ℕ → ℚ} (c : ℕ) (hw : AntitoneW w) (hnn : NonnegW w) :
    AntitoneW (cutW c w) := by
  intro i j hij
  unfold cutW
  by_cases hi : i < c <;> by_cases hj : j < c
  · simp only [hi, hj, if_pos]
    exact hw i j hij
  · simp only [hi, hj, if_pos, if_neg, ite_false, ite_true]
    exact hnn i
  · omega
  · simp [hi, hj]

theorem nonnegW_cutW {w : ℕ → ℚ} (c : ℕ) (hnn : NonnegW w) : NonnegW (cutW c w) := by
  intro i
  unfold cutW
  by_cases hi : i < c <;> simp [hi, hnn i]

theorem discountedSum_zero_weights : ∀ (l : List ℚ) (w : ℕ → ℚ),
    (∀ i, w i = 0) → discountedSum w l = 0 := by
  intro l
  induction l with
  | nil => intro w _; rfl
  | cons g gs ih =>
    intro w hz
    rw [discountedSum, hz 0, ih (fun i => w (i + 1)) (fun i => hz (i + 1))]
    ring

theorem cutW_shift (c : ℕ) (w : ℕ → ℚ) :
    (fun i => cutW (c + 1) w (i + 1)) = cutW c (fun i => w (i + 1)) := by
  funext i
  simp only [cutW]
  by_cases hi : i < c <;> simp [hi, Nat.succ_lt_succ_iff]

theorem discountedSum_take (w : ℕ → ℚ) :
    ∀ (l : List ℚ) (c : ℕ), discountedSum w (l.take c) = discountedSum (cutW c w) l := by
  intro l
  induction l generalizing w with
  | nil => intro c; simp [discountedSum]
  | cons g gs ih =>
    intro c
    cases c with
    | zero =>
      rw [List.take_zero]
      rw [discountedSum_zero_weights (g :: gs) (cutW 0 w) (fun i => by simp [cutW])]
      rfl
    | succ c' =>
      rw [List.take_succ_cons, discountedSum, discountedSum, ih (fun i => w (i + 1)) c',
        cutW_shift]
      have h0 : cutW (c' + 1) w 0 = w 0 := by simp [cutW]
      rw [h0]

theorem discountedSum_nonneg : ∀ (l : List ℚ) (w : ℕ → ℚ),
    (∀ x ∈ l, 0 ≤ x) → NonnegW w → 0 ≤ discountedSum w l := by
  intro l
  induction l with
  | nil => intro w _ _; exact le_refl 0
  | cons g gs ih =>
    intro w hl hnn
    rw [discountedSum]
    have h1 : 0 ≤ g * w 0 :=
      mul_nonneg (hl g (List.mem_cons_self g gs)) (hnn 0)
    have h2 : 0 ≤ discountedSum (fun i => w (i + 1)) gs :=
      ih _ (fun x hx => hl x (List.mem_cons_of_mem g hx)) (nonnegW_shift hnn)
    linarith

theorem discountedSum_le_orderedInsert (a : ℚ) :
    ∀ (s : List ℚ) (w : ℕ → ℚ), AntitoneW w → List.Sorted qGE s →
      discountedSum w (a :: s) ≤ discountedSum w (List.orderedInsert qGE a s) := by
  intro s
  induction s with
  | nil => intro w _ _; exact le_refl _
  | cons b t ih =>
    intro w hw hs
    by_cases hab : qGE a b
    · rw [List.orderedInsert_of_le qGE t hab]
    · have hab' : a ≤ b := le_of_not_le hab
      have hw01 : w 1 ≤ w 0 := hw 0 1 (by omega)
      simp only [List.orderedInsert, if_neg hab]
      have hstep : discountedSum w (a :: b :: t) ≤ discountedSum w (b :: a :: t) := by
        simp only [discountedSum]
        have key : a * w 0 + b * w 1 ≤ b * w 0 + a * w 1 := by
          nlinarith [mul_nonneg (sub_nonneg.mpr hab') (sub_nonneg.mpr hw01)]
        ring_nf
        ring_nf at key
        linarith
      refine hstep.trans ?_
      simp only [discountedSum]
      have htail := ih (fun i => w (i + 1)) (antitoneW_shift hw) hs.of_cons
      simp only [discountedSum] at htail
      linarith

theorem discountedSum_le_sortDesc : ∀ (l : List ℚ) (w : ℕ → ℚ), AntitoneW w →
    discountedSum w l ≤ discountedSum w (sortDescQ l) := by
  intro l
  induction l with
  | nil => intro w _; exact le_refl _
  | cons a L ih =>
    intro w hw
    have hsort : sortDescQ (a :: L) = List.orderedInsert qGE a (sortDescQ L) := rfl
    rw [hsort]
    have h1 : discountedSum w (a :: L) ≤ discountedSum w (a :: sortDescQ L) := by
      simp only [discountedSum]
      have := ih (fun i => w (i + 1)) (antitoneW_shift hw)
      linarith
    exact h1.trans (discountedSum_le_orderedInsert a (sortDescQ L) w hw (sortDescQ_sorted L))

theorem discountedSum_le_of_pointwise :
    ∀ (A B : List ℚ) (w : ℕ → ℚ), NonnegW w → (∀ x ∈ B, 0 ≤ x) →
      A.length ≤ B.length → (∀ i, i < A.length → A.getD i 0 ≤ B.getD i 0) →
      discountedSum w A ≤ discountedSum w B := by
  intro A
  induction A with
  | nil =>
    intro B w hnn hB _ _
    exact discountedSum_nonneg B w hB hnn
  | cons x xs ih =>
    intro B w hnn hB hlen hpt
    cases B with
    | nil => simp at hlen
    | cons y ys =>
      rw [discountedSum, discountedSum]
      have hxy : x ≤ y := by
        have := hpt 0 (by simp)
        simpa using this
      have h1 : x * w 0 ≤ y * w 0 := mul_le_mul_of_nonneg_right hxy (hnn 0)
      have h2 : discountedSum (fun i => w (i + 1)) xs ≤
          discountedSum (fun i => w (i + 1)) ys := by
        refine ih ys (fun i => w (i + 1)) (nonnegW_shift hnn)
          (fun z hz => hB z (List.mem_cons_of_mem y hz)) (by simpa using hlen) ?_
        intro i hi
        have := hpt (i + 1) (by simpa using Nat.succ_lt_succ hi)
        simpa using this
      linarith

theorem sorted_countP_ge :
    ∀ (l : List ℚ), List.Sorted qGE l → ∀ (i : ℕ) (a : ℚ), i < l.length →
      l.getD i 0 = a → i + 1 ≤ l.countP (fun y => decide (a ≤ y)) := by
  intro l
  induction l with
  | nil => intro _ i a hi _; simp at hi
  | cons x t ih =>
    intro hs i a hi ha
    cases i with
    | zero =>
      have hx : a = x := by simpa using ha.symm
      rw [List.countP_cons_of_pos _ _ (by simp [hx])]
      omega
    | succ j =>
      have hj : j < t.length := by simpa using hi
      have ha' : t.getD j 0 = a := by simpa using ha
      have hmem : t.getD j 0 ∈ t := by
        rw [List.getD_eq_getElem t 0 hj]
        exact List.getElem_mem hj
      have hax : a ≤ x := by
        rw [← ha']
        exact (List.sorted_cons.mp hs).1 _ hmem
      rw [List.countP_cons_of_pos _ _ (by simpa using hax)]
      have := ih (List.sorted_cons.mp hs).2 j a hj ha'
      omega

theorem sorted_countP_le (a : ℚ) :
    ∀ (l : List ℚ), List.Sorted qGE l → ∀ (i : ℕ), l.getD i 0 < a →
      l.countP (fun y => decide (a ≤ y)) ≤ i := by
  intro l
  induction l with
  | nil => intro _ i _; simp
  | cons x t ih =>
    intro hs i h
    cases i with
    | zero =>
      have hx : x < a := by simpa using h
      have hz : (x :: t).countP (fun y => decide (a ≤ y)) = 0 := by
        rw [List.countP_eq_zero]
        intro y hy
        rcases List.mem_cons.mp hy with rfl | hyt
        · simp; linarith
        · have hyx : y ≤ x := (List.sorted_cons.mp hs).1 y hyt
          simp; linarith
      omega
    | succ j =>
      have h' : t.getD j 0 < a := by simpa using h
      have := ih (List.sorted_cons.mp hs).2 j h'
      rw [List.countP_cons]
      by_cases hpx : a ≤ x <;> simp [hpx] <;> omega

theorem getD_nonneg {l : List ℚ} (h : ∀ x ∈ l, 0 ≤ x) (i : ℕ) : 0 ≤ l.getD i 0 := by
  by_cases hi : i < l.length
  · rw [List.getD_eq_getElem l 0 hi]
    exact h _ (List.getElem_mem hi)
  · rw [List.getD_eq_default l 0 (by omega)]

theorem getD_sortDesc_mono {A B : List ℚ} (hsub : A.Subperm B)
    (hB : ∀ x ∈ B, 0 ≤ x) (i : ℕ) :
    (sortDescQ A).getD i 0 ≤ (sortDescQ B).getD i 0 := by
  have hBmem : ∀ x ∈ sortDescQ B, 0 ≤ x := fun x hx =>
    hB x ((sortDescQ_perm B).mem_iff.mp hx)
  by_cases hi : i < (sortDescQ A).length
  · set a := (sortDescQ A).getD i 0 with ha
    have h1 : i + 1 ≤ (sortDescQ A).countP (fun y => decide (a ≤ y)) :=
      sorted_countP_ge (sortDescQ A) (sortDescQ_sorted A) i a hi rfl
    have h2 : (sortDescQ A).countP (fun y => decide (a ≤ y)) =
        A.countP (fun y => decide (a ≤ y)) :=
      (sortDescQ_perm A).countP_eq _
    have h3 : A.countP (fun y => decide (a ≤ y)) ≤
        B.countP (fun y => decide (a ≤ y)) := by
      rcases hsub with ⟨m, hm, hsl⟩
      rw [← hm.countP_eq]
      exact hsl.countP_le _
    have h4 : B.countP (fun y => decide (a ≤ y)) =
        (sortDescQ B).countP (fun y => decide (a ≤ y)) :=
      ((sortDescQ_perm B).countP_eq _).symm
    by_contra hcon
    push_neg at hcon
    have h5 := sorted_countP_le a (sortDescQ B) (sortDescQ_sorted B) i hcon
    omega
  · rw [List.getD_eq_default _ 0 (by omega)]
    exact getD_nonneg hBmem i

theorem find?_erase_of_pred_false {p : Qrel → Bool} {e : Qrel} (hne : p e = false) :
    ∀ (l : List Qrel), (l.erase e).find? p = l.find? p := by
  intro l
  induction l with
  | nil => rfl
  | cons x t ih =>
    by_cases hxe : x = e
    · subst hxe
      rw [List.erase_cons_head, List.find?_cons_of_neg _ (by simp [hne])]
    · rw [List.erase_cons_tail (by simpa using hxe)]
      by_cases hpx : p x
      · rw [List.find?_cons_of_pos _ hpx, List.find?_cons_of_pos _ hpx]
      · rw [List.find?_cons_of_neg _ hpx, List.find?_cons_of_neg _ hpx, ih]

theorem filter_erase_of_pred_true {p : Qrel → Bool} {e : Qrel} (hpe : p e = true) :
    ∀ (l : List Qrel), (l.erase e).filter p = (l.filter p).erase e := by
  intro l
  induction l with
  | nil => rfl
  | cons x t ih =>
    by_cases hxe : x = e
    · subst hxe
      rw [List.erase_cons_head, List.filter_cons, if_pos hpe, List.erase_cons_head]
    · rw [List.erase_cons_tail (by simpa using hxe), List.filter_cons, List.filter_cons]
      by_cases hpx : p x
      · rw [if_pos hpx, if_pos hpx, ih,
          List.erase_cons_tail (by simpa using hxe)]
      · rw [if_neg hpx, if_neg hpx, ih]

theorem gains_subperm (q : ℕ) :
    ∀ (docs : List ℕ) (qrels : List Qrel), docs.Nodup →
      (docs.map (fun d => (lookupGrade qrels q d : ℚ))).Subperm
        ((qrels.filter (fun j => decide (j.qid = q))).map (fun j => (j.grade : ℚ)) ++
          List.replicate docs.length 0) := by
  intro docs
  induction docs with
  | nil => intro qrels _; exact List.nil_subperm
  | cons d ds ih =>
    intro qrels hnd
    have hdnot : d ∉ ds := (List.nodup_cons.mp hnd).1
    have hnd' : ds.Nodup := (List.nodup_cons.mp hnd).2
    set G := (qrels.filter (fun j => decide (j.qid = q))).map (fun j => (j.grade : ℚ))
      with hG
    cases hfind : qrels.find? (fun j => decide (j.qid = q ∧ j.docid = d)) with
    | none =>
      have hlk : lookupGrade qrels q d = 0 := by rw [lookupGrade, hfind]
      rw [List.map_cons, hlk]
      have hih := ih qrels hnd'
      have hperm : (G ++ List.replicate (ds.length + 1) 0).Perm
          ((0 : ℚ) :: (G ++ List.replicate ds.length 0)) := by
        rw [List.replicate_succ']
        have : G ++ (List.replicate ds.length 0 ++ [(0 : ℚ)]) =
            (G ++ List.replicate ds.length 0) ++ [(0 : ℚ)] := by
          rw [List.append_assoc]
        rw [this]
        exact (List.perm_append_comm).trans (by rw [List.singleton_append])
      refine List.Subperm.trans ?_ hperm.symm.subperm
      rw [Nat.cast_zero]
      exact (List.subperm_cons _).mpr hih
    | some e =>
      have hpe : e.qid = q ∧ e.docid = d := by
        have := List.find?_some hfind
        simpa using this
      have hemem : e ∈ qrels := List.mem_of_find?_eq_some hfind
      have hlk : lookupGrade qrels q d = e.grade := by rw [lookupGrade, hfind]
      have hmapeq : ds.map (fun d' => (lookupGrade qrels q d' : ℚ)) =
          ds.map (fun d' => (lookupGrade (qrels.erase e) q d' : ℚ)) := by
        refine List.map_congr_left ?_
        intro d' hd'
        have hne : d' ≠ d := fun h => hdnot (h ▸ hd')
        have hpef : (fun j => decide (j.qid = q ∧ j.docid = d')) e = false := by
          simp [hpe.2, hne.symm]
        rw [lookupGrade, lookupGrade, find?_erase_of_pred_false hpef]
      have hih := ih (qrels.erase e) hnd'
      have heE : e ∈ qrels.filter (fun j => decide (j.qid = q)) :=
        List.mem_filter.mpr ⟨hemem, by simp [hpe.1]⟩
      have hfe : ((qrels.erase e).filter (fun j => decide (j.qid = q))) =
          (qrels.filter (fun j => decide (j.qid = q))).erase e :=
        filter_erase_of_pred_true (by simp [hpe.1]) qrels
      have hGperm : G.Perm
          ((e.grade : ℚ) ::
            ((qrels.erase e).filter (fun j => decide (j.qid = q))).map
              (fun j => (j.grade : ℚ))) := by
        rw [hfe, hG]
        exact (List.perm_cons_erase heE).map _
      rw [List.map_cons, hlk, hmapeq]
      have step1 : ((e.grade : ℚ) ::
          ds.map (fun d' => (lookupGrade (qrels.erase e) q d' : ℚ))).Subperm
          ((e.grade : ℚ) ::
            (((qrels.erase e).filter (fun j => decide (j.qid = q))).map
                (fun j => (j.grade : ℚ)) ++
              List.replicate ds.length 0)) :=
        (List.subperm_cons _).mpr hih
      have step2 : ((e.grade : ℚ) ::
          (((qrels.erase e).filter (fun j => decide (j.qid = q))).map
              (fun j => (j.grade : ℚ)) ++
            List.replicate ds.length 0)).Perm
          (G ++ List.replicate ds.length 0) := by
        have := (hGperm.symm).append_right (List.replicate ds.length (0 : ℚ))
        simpa using this
      have step3 : (G ++ List.replicate ds.length (0 : ℚ)).Sublist
          (G ++ List.replicate (ds.length + 1) (0 : ℚ)) :=
        List.Sublist.append_left
          ((List.replicate_sublist_replicate (0 : ℚ)).mpr (by omega)) G
      refine ((step1.trans step2.subperm).trans step3.subperm).trans ?_
      exact List.Subperm.refl _

theorem dcg_le_idcg (w : ℕ → ℚ) (qrels : List Qrel) (run : List RunEntry) (c q : ℕ)
    (hw : AntitoneW w) (hnn : NonnegW w) (hnd : (rankedDocs run q).Nodup) :
    dcg w qrels run c q ≤ idcg w qrels c q := by
  have h1 : dcg w qrels run c q =
      discountedSum (cutW c w)
        ((rankedDocs run q).map (fun d => (lookupGrade qrels q d : ℚ))) := by
    rw [dcg, gainsOf, List.map_take, discountedSum_take]
  have h2 : idcg w qrels c q = discountedSum (cutW c w) (sortDescQ (gradesOf qrels q)) := by
    rw [idcg, discountedSum_take]
  rw [h1, h2]
  have hcw : AntitoneW (cutW c w) := antitoneW_cutW c hw hnn
  have hcn : NonnegW (cutW c w) := nonnegW_cutW c hnn
  have hGnn : ∀ x ∈ gradesOf qrels q, (0 : ℚ) ≤ x := by
    intro x hx
    rcases List.mem_map.mp hx with ⟨j, _, rfl⟩
    positivity
  have hsub : ((rankedDocs run q).map (fun d => (lookupGrade qrels q d : ℚ))).Subperm
      (gradesOf qrels q ++ List.replicate (rankedDocs run q).length 0) :=
    gains_subperm q (rankedDocs run q) qrels hnd
  have hGRnn : ∀ x ∈ gradesOf qrels q ++ List.replicate (rankedDocs run q).length (0 : ℚ),
      (0 : ℚ) ≤ x := by
    intro x hx
    rcases List.mem_append.mp hx with hx | hx
    · exact hGnn x hx
    · rw [List.eq_of_mem_replicate hx]
  calc discountedSum (cutW c w) ((rankedDocs run q).map (fun d => (lookupGrade qrels q d : ℚ)))
      ≤ discountedSum (cutW c w)
          (sortDescQ ((rankedDocs run q).map (fun d => (lookupGrade qrels q d : ℚ)))) :=
        discountedSum_le_sortDesc _ _ hcw
    _ ≤ discountedSum (cutW c w)
          (sortDescQ (gradesOf qrels q ++ List.replicate (rankedDocs run q).length 0)) := by
        refine discountedSum_le_of_pointwise _ _ _ hcn ?_ ?_ ?_
        · intro x hx
          exact hGRnn x ((sortDescQ_perm _).mem_iff.mp hx)
        · rw [(sortDescQ_perm _).length_eq, (sortDescQ_perm _).length_eq]
          exact hsub.length_le
        · intro i _
          exact getD_sortDesc_mono hsub hGRnn i
    _ = discountedSum (cutW c w)
          (sortDescQ (gradesOf qrels q) ++ List.replicate (rankedDocs run q).length 0) := by
        rw [sortDescQ_append_replicate_zero _ hGnn]
    _ = discountedSum (cutW c w) (sortDescQ (gradesOf qrels q)) :=
        discountedSum_append_replicate_zero _ _ _

theorem nDCG_unit (w : ℕ → ℚ) (qrels : List Qrel) (run : List RunEntry) (c q : ℕ)
    (hw : AntitoneW w) (hnn : NonnegW w) (hnd : (rankedDocs run q).Nodup) :
    0 ≤ nDCG w qrels run c q ∧ nDCG w qrels run c q ≤ 1 := by
  have hd : 0 ≤ dcg w qrels run c q := by
    rw [dcg]
    refine discountedSum_nonneg _ _ ?_ hnn
    intro x hx
    rcases List.mem_map.mp hx with ⟨d, _, rfl⟩
    positivity
  have hi0 : 0 ≤ idcg w qrels c q := by
    rw [idcg]
    refine discountedSum_nonneg _ _ ?_ hnn
    intro x hx
    have hx' : x ∈ sortDescQ (gradesOf qrels q) := List.mem_of_mem_take hx
    rcases List.mem_map.mp ((sortDescQ_perm _).mem_iff.mp hx') with ⟨j, _, rfl⟩
    positivity
  have hle := dcg_le_idcg w qrels run c q hw hnn hnd
  rcases eq_or_lt_of_le hi0 with h0 | hpos
  · rw [nDCG, ← h0, div_zero]
    norm_num
  · exact ⟨div_nonneg hd hi0, (div_le_one hpos).mpr hle⟩

theorem rrAux_unit (rel : ℕ → Bool) :
    ∀ (l : List ℕ) (i : ℕ), 0 ≤ rrAux rel l i ∧ rrAux rel l i ≤ 1 := by
  intro l
  induction l with
  | nil => intro i; constructor <;> norm_num [rrAux]
  | cons d ds ih =>
    intro i
    by_cases hd : rel d
    · simp only [rrAux, hd, if_true]
      have h1 : (0 : ℚ) < (i : ℚ) + 1 := by positivity
      constructor
      · positivity
      · rw [div_le_one h1]
        have : (0 : ℚ) ≤ (i : ℚ) := by positivity
        linarith
    · simp only [rrAux, hd, Bool.false_eq_true, if_false]
      exact ih (i + 1)

theorem apAux_nonneg (rel : ℕ → Bool) :
    ∀ (l : List ℕ) (i r : ℕ), 0 ≤ apAux rel l i r := by
  intro l
  induction l with
  | nil => intro i r; exact le_refl 0
  | cons d ds ih =>
    intro i r
    by_cases hd : rel d
    · simp only [apAux, hd, if_true]
      have h1 : (0 : ℚ) ≤ ((r : ℚ) + 1) / ((i : ℚ) + 1) := by positivity
      have h2 := ih (i + 1) (r + 1)
      linarith
    · simp only [apAux, hd, Bool.false_eq_true, if_false]
      exact ih (i + 1) r

theorem apAux_le_countP (rel : ℕ → Bool) :
    ∀ (l : List ℕ) (i r : ℕ), r ≤ i → apAux rel l i r ≤ (l.countP rel : ℚ) := by
  intro l
  induction l with
  | nil => intro i r _; simp [apAux]
  | cons d ds ih =>
    intro i r hri
    rw [List.countP_cons]
    by_cases hd : rel d
    · simp only [apAux, hd, if_true]
      have h1 : ((r : ℚ) + 1) / ((i : ℚ) + 1) ≤ 1 := by
        rw [div_le_one (by positivity)]
        have : (r : ℚ) ≤ (i : ℚ) := by exact_mod_cast hri
        linarith
      have h2 := ih (i + 1) (r + 1) (by omega)
      push_cast
      linarith
    · simp only [apAux, hd, Bool.false_eq_true, if_false]
      have h2 := ih (i + 1) r (by omega)
      push_cast
      linarith

theorem countP_isRel_le_numRel (θ : ℕ) (qrels : List Qrel) (q : ℕ)
    (docs : List ℕ) (hnd : docs.Nodup) :
    docs.countP (isRel θ qrels q) ≤ numRel θ qrels q := by
  rw [List.countP_eq_length_filter]
  have hsubset : (docs.filter (isRel θ qrels q)) ⊆
      (qrels.filter (fun j => decide (j.qid = q ∧ θ < j.grade))).map
        (fun j => j.docid) := by
    intro d hd
    have hdrel : isRel θ qrels q d = true := (List.mem_filter.mp hd).2
    rw [isRel, decide_eq_true_eq] at hdrel
    unfold lookupGrade at hdrel
    cases hfind : qrels.find? (fun j => decide (j.qid = q ∧ j.docid = d)) with
    | none => rw [hfind] at hdrel; simp at hdrel
    | some e =>
      rw [hfind] at hdrel
      simp only at hdrel
      have hpe : e.qid = q ∧ e.docid = d := by simpa using List.find?_some hfind
      have hemem : e ∈ qrels := List.mem_of_find?_eq_some hfind
      have he2 : e ∈ qrels.filter (fun j => decide (j.qid = q ∧ θ < j.grade)) :=
        List.mem_filter.mpr ⟨hemem, by simp [hpe.1, hdrel]⟩
      rw [← hpe.2]
      exact List.mem_map_of_mem _ he2
  have hnd2 : (docs.filter (isRel θ qrels q)).Nodup := hnd.filter _
  have hlen := (hnd2.subperm hsubset).length_le
  rw [List.length_map] at hlen
  exact hlen

theorem avgPrec_unit (θ : ℕ) (qrels : List Qrel) (run : List RunEntry) (q : ℕ)
    (hnd : (rankedDocs run q).Nodup) :
    0 ≤ avgPrec θ qrels run q ∧ avgPrec θ qrels run q ≤ 1 := by
  rw [avgPrec]
  rcases Nat.eq_zero_or_pos (numRel θ qrels q) with h0 | hpos
  · rw [h0]
    norm_num
  · have hposQ : (0 : ℚ) < (numRel θ qrels q : ℚ) := by exact_mod_cast hpos
    constructor
    · exact div_nonneg (apAux_nonneg _ _ _ _) hposQ.le
    · rw [div_le_one hposQ]
      calc apAux (isRel θ qrels q) (rankedDocs run q) 0 0
          ≤ ((rankedDocs run q).countP (isRel θ qrels q) : ℚ) :=
            apAux_le_countP _ _ 0 0 le_rfl
        _ ≤ (numRel θ qrels q : ℚ) := by
            exact_mod_cast countP_isRel_le_numRel θ qrels q _ hnd

theorem mean_unit (l : List ℚ) (h : ∀ x ∈ l, 0 ≤ x ∧ x ≤ 1) :
    0 ≤ mean l ∧ mean l ≤ 1 := by
  rcases eq_or_ne l [] with rfl | hne
  · rw [mean]
    norm_num
  · have hlen : (0 : ℚ) < (l.length : ℚ) := by
      have := List.length_pos.mpr hne
      exact_mod_cast this
    have hsum0 : 0 ≤ l.sum := List.sum_nonneg (fun x hx => (h x hx).1)
    have hsum1 : l.sum ≤ (l.length : ℚ) := by
      have := List.sum_le_card_nsmul l 1 (fun x hx => (h x hx).2)
      simpa [nsmul_eq_mul] using this
    refine ⟨div_nonneg hsum0 hlen.le, ?_⟩
    rw [mean, div_le_one hlen]
    exact hsum1

/-- C2: for every run and judgment set (with, per the data model, a
ranked list of distinct documents per query) and every nonnegative
antitone discount, the aggregated normalized discounted cumulative gain
lies in `[0, 1]`, and mean average precision and reciprocal rank each lie
in `[0, 1]`. -/
theorem C2_metric_ranges (w : ℕ → ℚ) (θ : ℕ) (qrels : List Qrel)
    (run : List RunEntry) (topics : List ℕ) (k c : ℕ)
    (hw : AntitoneW w) (hnn : NonnegW w)
    (hnd : ∀ q ∈ topics, (rankedDocs run q).Nodup) :
    (0 ≤ evalMetric w θ (Metric.ndcg c) qrels run topics ∧
      evalMetric w θ (Metric.ndcg c) qrels run topics ≤ 1) ∧
    (0 ≤ evalMetric w θ Metric.map qrels run topics ∧
      evalMetric w θ Metric.map qrels run topics ≤ 1) ∧
    (0 ≤ evalMetric w θ (Metric.rr k) qrels run topics ∧
      evalMetric w θ (Metric.rr k) qrels run topics ≤ 1) := by
  refine ⟨?_, ?_, ?_⟩
  · refine mean_unit _ ?_
    intro x hx
    rcases List.mem_map.mp hx with ⟨q, hq, rfl⟩
    exact nDCG_unit w qrels run c q hw hnn (hnd q hq)
  · refine mean_unit _ ?_
    intro x hx
    rcases List.mem_map.mp hx with ⟨q, hq, rfl⟩
    exact avgPrec_unit θ qrels run q (hnd q hq)
  · refine mean_unit _ ?_
    intro x hx
    rcases List.mem_map.mp hx with ⟨q, _, rfl⟩
    exact rrAux_unit _ _ _

theorem C2_metric_ranges_witness :
    (0 ≤ evalMetric (fun i => 1 / ((i : ℚ) + 1)) 0 (Metric.ndcg 20) qrelsEx runA [1] ∧
      evalMetric (fun i => 1 / ((i : ℚ) + 1)) 0 (Metric.ndcg 20) qrelsEx runA [1] ≤ 1) ∧
    (0 ≤ evalMetric (fun i => 1 / ((i : ℚ) + 1)) 0 Metric.map qrelsEx runA [1] ∧
      evalMetric (fun i => 1 / ((i : ℚ) + 1)) 0 Metric.map qrelsEx runA [1] ≤ 1) ∧
    (0 ≤ evalMetric (fun i => 1 / ((i : ℚ) + 1)) 0 (Metric.rr 10) qrelsEx runA [1] ∧
      evalMetric (fun i => 1 / ((i : ℚ) + 1)) 0 (Metric.rr 10) qrelsEx runA [1] ≤ 1) :=
  C2_metric_ranges (fun i => 1 / ((i : ℚ) + 1)) 0 qrelsEx runA [1] 10 20
    (by
      intro i j hij
      refine one_div_le_one_div_of_le (by positivity) ?_
      have : (i : ℚ) ≤ (j : ℚ) := by exact_mod_cast hij
      linarith)
    (by intro i; positivity)
    (by
      intro q hq
      simp only [List.mem_cons, List.not_mem_nil, or_false] at hq
      subst hq
      norm_num [rankedDocs, sortQ, queryRun, List.insertionSort, List.orderedInsert,
        pairLE, runA])

end IR
